import Mathlib

/-!
Verification of the citybee grid / pathfinding core (src/src/main.rs).

Shallow embedding conventions:
* Rust `i8` values are modelled as `ℤ`.  In every operation below the
  component values reaching the `i8` arithmetic are small (grid side is
  asserted to be 5, coordinates handled by the claims lie well inside
  `[-128, 127]`), so two's-complement wrap-around can never fire on the
  inputs any claim quantifies over; where a cast could saturate or wrap we
  note it at the definition.
* Rust `f32` world coordinates are modelled as `ℚ`.  The only float
  operations the claims touch are exact on the values involved
  (integer-valued floats, halves), where `f32` arithmetic coincides with
  rational arithmetic; `f32::round` is half-away-from-zero, modelled
  explicitly by `roundHalfAway`, and `as i8` saturates, modelled by `toI8`.
* `usize` is `ℕ`; `u8` heights are `ℕ`.
* Array indexing `self.heights[idx]` is modelled with `List.getD _ _ 0`;
  every call site reaches it through `coords_to_index`, which only returns
  indices below `side * side = heights.length` for a well-formed city.
-/

/-- World-space vector, the model of `bevy`'s `Vec3` (components are `f32`
in the source; the values the claims quantify over are exactly
representable, so `ℚ` components are a faithful model). -/
structure Vec3 where
  x : ℚ
  y : ℚ
  z : ℚ
deriving DecidableEq, Repr

/-- `f32::round`: round half away from zero (0.5 → 1, -0.5 → -1). -/
def roundHalfAway (q : ℚ) : ℤ :=
  if 0 ≤ q then ⌊q + 1/2⌋ else ⌈q - 1/2⌉

theorem roundHalfAway_intCast (n : ℤ) : roundHalfAway (n : ℚ) = n := by
  unfold roundHalfAway
  rcases le_or_lt 0 (n : ℚ) with h | h
  · rw [if_pos h]
    rw [show ((n : ℚ) + 1/2) = (n : ℚ) + 1/2 from rfl, Int.floor_int_add]
    norm_num
  · rw [if_neg (not_le.mpr h)]
    rw [show ((n : ℚ) - 1/2) = (-(1/2) : ℚ) + n by ring, Int.ceil_add_int]
    norm_num

theorem roundHalfAway_half : roundHalfAway (1/2) = 1 := by
  unfold roundHalfAway
  norm_num

theorem roundHalfAway_neg_half : roundHalfAway (-(1/2)) = -1 := by
  unfold roundHalfAway
  norm_num
  rw [show (-1 : ℚ) = ((-1 : ℤ) : ℚ) by norm_num, Int.ceil_intCast]

/-- Rust `as i8` cast from a rounded float: saturating at the `i8` range.
On every value reaching it in the claims the cast is the identity. -/
def toI8 (n : ℤ) : ℤ :=
  max (-128) (min 127 n)

/-- `GridCoords` from the source: a pair of `i8` grid coordinates. -/
structure GridCoords where
  x : ℤ
  y : ℤ
deriving DecidableEq, Repr

namespace GridCoords

def ORIGIN : GridCoords := ⟨0, 0⟩

/-- `GridCoords::from_world`: round world x/z half away from zero and cast
to `i8`; world y (elevation) is ignored. -/
def from_world (world : Vec3) : GridCoords :=
  ⟨toI8 (roundHalfAway world.x), toI8 (roundHalfAway world.z)⟩

/-- `GridCoords::to_world`: grid xy is world xz, world y is the
caller-supplied elevation. -/
def to_world (c : GridCoords) (elevation : ℚ) : Vec3 :=
  ⟨(c.x : ℚ), elevation, (c.y : ℚ)⟩

/-- `GridCoords::manhattan_dist` (`i8` arithmetic in the source; the claims
only apply it to coordinates derived from valid 5×5 grid indices, where
every intermediate value is tiny, so plain `ℤ` arithmetic is exact). -/
def manhattan_dist (c dest : GridCoords) : ℤ :=
  |dest.x - c.x| + |dest.y - c.y|

def up (c : GridCoords) : GridCoords := ⟨c.x, c.y + 1⟩

def down (c : GridCoords) : GridCoords := ⟨c.x, c.y - 1⟩

def left (c : GridCoords) : GridCoords := ⟨c.x - 1, c.y⟩

def right (c : GridCoords) : GridCoords := ⟨c.x + 1, c.y⟩

end GridCoords

/-- `type Height = u8`. -/
abbrev Height := ℕ

/-- `City<L>`: heights array plus square dimensions (`x_len = y_len`,
asserted equal to 5 at construction). -/
structure City where
  heights : List Height
  x_len : ℕ
  y_len : ℕ
deriving DecidableEq, Repr

namespace City

/-- `City::coords_to_index`: shift each component by `side / 2`
(`self.y_len as i8 / 2` in the source — the cast is exact because the side
is asserted to be 5 at construction), reject if a shifted component falls
outside `[0, side)`, else linearise as `shifted_y * y_len + shifted_x`. -/
def coords_to_index (c : City) (coords : GridCoords) : Option ℕ :=
  let shifted_y : ℤ := coords.y + ((c.y_len : ℤ) / 2)
  let shifted_x : ℤ := coords.x + ((c.x_len : ℤ) / 2)
  if shifted_x < 0 ∨ (c.x_len : ℤ) ≤ shifted_x ∨ shifted_y < 0 ∨ (c.y_len : ℤ) ≤ shifted_y
  then none
  else some (shifted_y.toNat * c.y_len + shifted_x.toNat)

/-- `City::index_to_coords` (`idx % x_len` / `idx / y_len`, then shift back;
the `as i8` casts are exact for the valid indices `< 25` the claims use). -/
def index_to_coords (c : City) (idx : ℕ) : GridCoords :=
  let half_xl : ℤ := (c.x_len : ℤ) / 2
  let half_yl : ℤ := (c.y_len : ℤ) / 2
  let x : ℕ := idx % c.x_len
  let y : ℕ := idx / c.y_len
  ⟨(x : ℤ) - half_xl, (y : ℤ) - half_yl⟩

/-- `City::height_at_coords`: bounds check through `coords_to_index`, then
`Some h` for a positive stored height, `None` for 0. -/
def height_at_coords (c : City) (coords : GridCoords) : Option Height :=
  match c.coords_to_index coords with
  | none => none
  | some idx =>
    let h := c.heights.getD idx 0
    if h > 0 then some h else none

/-- `City::set_height_at_coords`: silently return on out-of-bounds
coordinates, else overwrite the cell with `height.unwrap_or(0)`. -/
def set_height_at_coords (c : City) (coords : GridCoords) (height : Option Height) : City :=
  match c.coords_to_index coords with
  | none => c
  | some idx => { c with heights := c.heights.set idx (height.getD 0) }

/-- `City::valid_exit`: the cell's index if it is unoccupied (no positive
height) and in bounds, else `None`. -/
def valid_exit (c : City) (coords : GridCoords) : Option ℕ :=
  match c.height_at_coords coords with
  | none => c.coords_to_index coords
  | some _ => none

/-- `BaseMap::get_available_exits for City`: push the up/down/left/right
neighbors that are valid exits, each with cost 1.0, in that order. -/
def get_available_exits (c : City) (idx : ℕ) : List (ℕ × ℚ) :=
  let coords := c.index_to_coords idx
  ([coords.up, coords.down, coords.left, coords.right].filterMap c.valid_exit).map
    (fun i => (i, (1 : ℚ)))

/-- `BaseMap::get_pathing_distance for City`: Manhattan distance between
the two cells' coordinates, as a float cost. -/
def get_pathing_distance (c : City) (idx1 idx2 : ℕ) : ℚ :=
  (((c.index_to_coords idx1).manhattan_dist (c.index_to_coords idx2) : ℤ) : ℚ)

/-- `City::new`: the constructor asserts that the cell count is a perfect
square whose root is 5 (`assert_eq!(size, 5)`); modelled as `none` on the
fatal panic. -/
def new (heights : List Height) : Option City :=
  if heights.length = 25 then some ⟨heights, 5, 5⟩ else none

end City

/-- `STARTING_CITY`, the literal 5×5 starting configuration. -/
def STARTING_CITY : List Height :=
  [0, 0, 0, 0, 0,
   0, 0, 0, 0, 0,
   0, 0, 3, 1, 0,
   0, 1, 0, 0, 0,
   0, 2, 0, 0, 0]

/-- The city the program runs with: `City::new(STARTING_CITY)`. -/
def city5 : City := ⟨STARTING_CITY, 5, 5⟩

/-- The shape `City::new` guarantees (its asserts force side 5, and
`City<25>` is the only instantiation used): a 5×5 grid with 25 cells. -/
def Wellformed (c : City) : Prop :=
  c.x_len = 5 ∧ c.y_len = 5 ∧ c.heights.length = 25

instance : DecidablePred Wellformed := fun c => by
  unfold Wellformed; infer_instance

theorem city5_wellformed : Wellformed city5 := by decide

theorem city5_new : City.new STARTING_CITY = some city5 := by decide

theorem city5_index_origin : city5.coords_to_index ⟨0, 0⟩ = some 12 := by decide

theorem city5_coords_of_12 : city5.index_to_coords 12 = ⟨0, 0⟩ := by decide

theorem city5_height_origin : city5.height_at_coords ⟨0, 0⟩ = some 3 := by decide

theorem city5_exits_of_12 : city5.get_available_exits 12 = [(17, 1), (7, 1), (11, 1)] := by
  decide

/-- Evaluation of `from_world` at a world point with integer x/z. -/
theorem from_world_intCast (a b : ℤ) (e : ℚ) :
    GridCoords.from_world ⟨(a : ℚ), e, (b : ℚ)⟩ = ⟨toI8 a, toI8 b⟩ := by
  unfold GridCoords.from_world
  rw [show (⟨(a : ℚ), e, (b : ℚ)⟩ : Vec3).x = (a : ℚ) from rfl,
     show (⟨(a : ℚ), e, (b : ℚ)⟩ : Vec3).z = (b : ℚ) from rfl,
     roundHalfAway_intCast, roundHalfAway_intCast]

theorem from_world_origin : GridCoords.from_world ⟨(0 : ℤ), 0, (0 : ℤ)⟩ = ⟨0, 0⟩ := by
  rw [from_world_intCast]
  decide

/-! ## Path search

`people_walk` calls `a_star_search` from the external `bracket_pathfinding`
crate; only its callers and the `BaseMap` capability it consumes
(`get_available_exits` / `get_pathing_distance`) are in this repository.
The search itself is therefore modelled from the spec (§4.3). -/

/-- `bracket_pathfinding`'s `NavigationPath` (external crate): destination
index, success flag, and the list of step indices.  `default()` is
destination 0, unsuccessful, no steps. -/
structure NavigationPath where
  destination : ℕ
  success : Bool
  steps : List ℕ
deriving DecidableEq, Repr

def NavigationPath.default : NavigationPath := ⟨0, false, []⟩

/-- The neighbor indices offered by `get_available_exits` (costs dropped;
every cost is 1). -/
def nbrs (c : City) (i : ℕ) : List ℕ :=
  (c.get_available_exits i).map Prod.fst

/-- `ValidWalk c s steps`: starting from cell index `s`, each entry of
`steps` is an available exit of the previous cell.  This is exactly a
route produced by "4-connected expansion" over `get_available_exits`,
excluding the start cell itself. -/
def ValidWalk (c : City) : ℕ → List ℕ → Prop
  | _, [] => True
  | s, j :: rest => j ∈ nbrs c s ∧ ValidWalk c j rest

instance ValidWalk.dec (c : City) : (s : ℕ) → (steps : List ℕ) → Decidable (ValidWalk c s steps)
  | _, [] => isTrue trivial
  | s, j :: rest =>
    haveI := ValidWalk.dec c j rest
    inferInstanceAs (Decidable (j ∈ nbrs c s ∧ ValidWalk c j rest))

/-- End cell of a walk: the last step, or the start if there are none. -/
def wend (s : ℕ) (steps : List ℕ) : ℕ :=
  steps.getLastD s

/-- `t` can be reached from `s` along available exits. -/
def Reachable (c : City) (s t : ℕ) : Prop :=
  ∃ steps, ValidWalk c s steps ∧ wend s steps = t

/-- Cells reachable from `s` in at most `n` steps (breadth-first layers). -/
def reachIn (c : City) (s : ℕ) : ℕ → List ℕ
  | 0 => [s]
  | n + 1 =>
    let prev := reachIn c s n
    (prev ++ prev.flatMap (nbrs c)).dedup

/-- Scan `n, n+1, ...` (up to `fuel` candidates) for the first layer
containing `t`. -/
def bfsDistGo (c : City) (s t : ℕ) : ℕ → ℕ → Option ℕ
  | 0, _ => none
  | fuel + 1, n => if t ∈ reachIn c s n then some n else bfsDistGo c s t fuel (n + 1)

/-- Length of the shortest walk from `s` to `t`, searched up to the cell
count (enough: breadth-first layers over at most `heights.length` cells
stabilise by then), `none` if unreachable. -/
def bfsDist (c : City) (s t : ℕ) : Option ℕ :=
  bfsDistGo c s t (c.heights.length + 1) 0

/-- Walk backwards from `t`, at each level picking the first cell (by
index order) of the previous breadth-first layer that offers `t` as an
exit. -/
def pathBack (c : City) (s : ℕ) : ℕ → ℕ → List ℕ
  | _, 0 => []
  | t, n + 1 =>
    match (List.range c.heights.length).find?
        (fun u => decide (t ∈ nbrs c u) && decide (u ∈ reachIn c s n)) with
    | some u => pathBack c s u n ++ [t]
    | none => []

/-- Modelled from the spec: the step list of `bracket_pathfinding`'s
`a_star_search` (external crate, not in src/) — "given a City-like
occupancy source, a start index, a goal index, produce the least-cost
sequence of intermediate cell indices (excluding start, including goal)
using 4-connected expansion"; unreachable goals yield the empty
sequence (§4.3), and a goal equal to the start also yields the empty
sequence ("already at goal (also an empty sequence)"). -/
def searchPath (c : City) (s t : ℕ) : List ℕ :=
  match bfsDist c s t with
  | none => []
  | some n => pathBack c s t n

/-- Modelled from the spec: `a_star_search` of the external
`bracket_pathfinding` crate, packaging `searchPath` as a
`NavigationPath`. -/
def a_star_search (start goal : ℕ) (c : City) : NavigationPath :=
  let steps := searchPath c start goal
  ⟨goal, !steps.isEmpty, steps⟩

/-! ## Agents -/

/-- `PERSON_SPEED` (`f32` 1.0, exact). -/
def PERSON_SPEED : ℚ := 1

/-- `PERSON_HEIGHT` (`f32` literal 0.1; the nearest `f32` differs from
1/10 in the 25th binary digit, but elevations are ignored by `from_world`
and never observed by any claim, so `1/10` is a faithful stand-in). -/
def PERSON_HEIGHT : ℚ := 1/10

/-- `Person`: goal plus current path. -/
structure Person where
  goal : Option GridCoords
  path : NavigationPath
deriving DecidableEq, Repr

/-- `Person::default()`: no goal, default (empty) path. -/
def Person.default : Person := ⟨none, NavigationPath.default⟩

/-- `Person::reset_path`: `self.path = default()`. -/
def Person.reset_path (p : Person) : Person :=
  { p with path := NavigationPath.default }

/-- `reset_paths_after_city_changes`: if the `City` resource changed since
this system last ran (`city.is_changed()`, modelled as the Boolean input),
reset every person's path. -/
def reset_paths_after_city_changes (city_changed : Bool) (people : List Person) : List Person :=
  if city_changed then people.map Person.reset_path else people

/-- The velocity written by `people_walk` for one person.  `toward target
current` stands for `(target - current).normalize_or_zero() * PERSON_SPEED`,
whose `f32` normalisation no claim observes numerically. -/
inductive VelUpdate where
  | zero : VelUpdate
  | toward (target current : Vec3) : VelUpdate
deriving DecidableEq, Repr

/-- One person's slice of the `people_walk` system.  `randGoal` injects the
tick's random draw `GridCoords::new(rng.gen_range(-2..=2), rng.gen_range(-2..=2))`;
`pos` is the person's transform translation.  `none` models a panic of one
of the three `unwrap`s in the planning branch. -/
def person_tick (c : City) (randGoal : GridCoords) (pos : Vec3) (p : Person) :
    Option (Person × VelUpdate) :=
  let coords := GridCoords.from_world pos
  let p1 :=
    if p.goal = none ∨ p.goal = some coords then
      { p with goal := some randGoal, path := NavigationPath.default }
    else p
  let planned : Option Person :=
    if p1.path.steps.isEmpty then
      match p1.goal with
      | none => none
      | some goal =>
        match c.coords_to_index coords, c.coords_to_index goal with
        | some start_idx, some goal_idx =>
          let path := a_star_search start_idx goal_idx c
          if path.steps.isEmpty then some { p1 with goal := none }
          else some { p1 with path := path }
        | _, _ => none
    else some p1
  planned.map (fun p2 =>
    match p2.path.steps with
    | step :: rest =>
      let goal_coords := c.index_to_coords step
      if goal_coords = coords then
        ({ p2 with path := { p2.path with steps := rest } }, VelUpdate.zero)
      else
        (p2, VelUpdate.toward (goal_coords.to_world (PERSON_HEIGHT * (1/2))) pos)
    | [] => (p2, VelUpdate.zero))

/-! ## Grid lemmas -/

theorem coords_to_index_eq_some_iff (c : City) (hw : Wellformed c) (g : GridCoords) (k : ℕ) :
    c.coords_to_index g = some k ↔
      0 ≤ g.x + 2 ∧ g.x + 2 < 5 ∧ 0 ≤ g.y + 2 ∧ g.y + 2 < 5 ∧
        (k : ℤ) = (g.y + 2) * 5 + (g.x + 2) := by
  obtain ⟨hx5, hy5, -⟩ := id hw
  simp only [City.coords_to_index, hx5, hy5]
  split_ifs with h
  · constructor
    · intro hc; exact hc.elim
    · intro hc; exfalso; omega
  · rw [Option.some.injEq]
    omega

theorem coords_to_index_eq_none_iff (c : City) (hw : Wellformed c) (g : GridCoords) :
    c.coords_to_index g = none ↔
      ¬(0 ≤ g.x + 2 ∧ g.x + 2 < 5 ∧ 0 ≤ g.y + 2 ∧ g.y + 2 < 5) := by
  obtain ⟨hx5, hy5, -⟩ := id hw
  simp only [City.coords_to_index, hx5, hy5]
  split_ifs with h
  · constructor
    · intro _; omega
    · intro _; rfl
  · constructor
    · intro hc; exact hc.elim
    · intro hc; exfalso; omega

theorem coords_to_index_lt (c : City) (hw : Wellformed c) (g : GridCoords) (k : ℕ)
    (h : c.coords_to_index g = some k) : k < 25 := by
  have := (coords_to_index_eq_some_iff c hw g k).mp h
  omega

theorem index_to_coords_of_coords_to_index (c : City) (hw : Wellformed c) (g : GridCoords)
    (k : ℕ) (h : c.coords_to_index g = some k) : c.index_to_coords k = g := by
  obtain ⟨hx5, hy5, -⟩ := id hw
  obtain ⟨h1, h2, h3, h4, h5⟩ := (coords_to_index_eq_some_iff c hw g k).mp h
  cases g with
  | mk gx gy =>
    dsimp only at h1 h2 h3 h4 h5
    simp only [City.index_to_coords, hx5, hy5, GridCoords.mk.injEq]
    omega

theorem coords_to_index_of_index_to_coords (c : City) (hw : Wellformed c) (k : ℕ)
    (hk : k < 25) : c.coords_to_index (c.index_to_coords k) = some k := by
  obtain ⟨hx5, hy5, -⟩ := id hw
  rw [coords_to_index_eq_some_iff c hw]
  simp only [City.index_to_coords, hx5, hy5]
  omega

theorem index_to_coords_inj (c : City) (hw : Wellformed c) (k1 k2 : ℕ)
    (h1 : k1 < 25) (h2 : k2 < 25) (h : c.index_to_coords k1 = c.index_to_coords k2) :
    k1 = k2 := by
  have e1 := coords_to_index_of_index_to_coords c hw k1 h1
  have e2 := coords_to_index_of_index_to_coords c hw k2 h2
  rw [h, e2] at e1
  exact (Option.some.injEq _ _).mp e1.symm

/-! ## Occupancy and exits lemmas -/

theorem height_at_coords_eq_none_iff (c : City) (g : GridCoords) :
    c.height_at_coords g = none ↔
      c.coords_to_index g = none ∨
        ∃ k, c.coords_to_index g = some k ∧ c.heights.getD k 0 = 0 := by
  unfold City.height_at_coords
  cases h : c.coords_to_index g with
  | none => simp
  | some k =>
    dsimp only
    split_ifs with hpos
    · constructor
      · intro hc; exact hc.elim
      · intro hc
        rcases hc with hc | ⟨k2, hk2, hz⟩
        · exact hc.elim
        · rw [Option.some.injEq] at hk2
          subst hk2
          rw [hz] at hpos
          exact Nat.lt_irrefl 0 hpos
    · constructor
      · intro _
        right
        exact ⟨k, rfl, Nat.eq_zero_of_not_pos hpos⟩
      · intro _; rfl

theorem height_at_coords_eq_some_iff (c : City) (g : GridCoords) (h : Height) :
    c.height_at_coords g = some h ↔
      ∃ k, c.coords_to_index g = some k ∧ c.heights.getD k 0 = h ∧ 0 < h := by
  unfold City.height_at_coords
  cases hidx : c.coords_to_index g with
  | none => simp
  | some k =>
    dsimp only
    split_ifs with hpos
    · constructor
      · intro he
        rw [Option.some.injEq] at he
        exact ⟨k, rfl, he, he ▸ hpos⟩
      · intro ⟨k2, hk2, hh, hp⟩
        rw [Option.some.injEq] at hk2
        subst hk2
        exact congrArg some hh
    · constructor
      · intro hc; exact hc.elim
      · intro ⟨k2, hk2, hh, hp⟩
        rw [Option.some.injEq] at hk2
        subst hk2
        exact absurd (by rw [hh]; exact hp) hpos

theorem valid_exit_eq_some_iff (c : City) (g : GridCoords) (j : ℕ) :
    c.valid_exit g = some j ↔ c.coords_to_index g = some j ∧ c.heights.getD j 0 = 0 := by
  unfold City.valid_exit
  cases hh : c.height_at_coords g with
  | some k =>
    dsimp only
    constructor
    · intro hc; exact Option.noConfusion hc
    · intro ⟨hidx, hzero⟩
      obtain ⟨k2, hk2, hk2v, hk2pos⟩ := (height_at_coords_eq_some_iff c g k).mp hh
      rw [hidx, Option.some.injEq] at hk2
      subst hk2
      rw [hzero] at hk2v
      exact absurd hk2v.symm (Nat.pos_iff_ne_zero.mp hk2pos)
  | none =>
    dsimp only
    constructor
    · intro hidx
      refine ⟨hidx, ?_⟩
      rcases (height_at_coords_eq_none_iff c g).mp hh with hnone | ⟨k2, hk2, hz⟩
      · rw [hidx] at hnone; exact Option.noConfusion hnone
      · rw [hidx, Option.some.injEq] at hk2
        subst hk2
        exact hz
    · intro ⟨hidx, _⟩; exact hidx

theorem nbrs_eq_filterMap (c : City) (i : ℕ) :
    nbrs c i = [(c.index_to_coords i).up, (c.index_to_coords i).down,
      (c.index_to_coords i).left, (c.index_to_coords i).right].filterMap c.valid_exit := by
  unfold nbrs City.get_available_exits
  rw [List.map_map]
  have hcomp : (Prod.fst ∘ fun i : ℕ => (i, (1 : ℚ))) = id := by
    funext x; rfl
  rw [hcomp, List.map_id]

theorem mem_nbrs_iff (c : City) (i j : ℕ) :
    j ∈ nbrs c i ↔
      ∃ d, (d = (c.index_to_coords i).up ∨ d = (c.index_to_coords i).down ∨
        d = (c.index_to_coords i).left ∨ d = (c.index_to_coords i).right) ∧
        c.valid_exit d = some j := by
  rw [nbrs_eq_filterMap, List.mem_filterMap]
  constructor
  · intro ⟨d, hd, he⟩
    simp only [List.mem_cons, List.not_mem_nil, or_false] at hd
    exact ⟨d, hd, he⟩
  · intro ⟨d, hd, he⟩
    refine ⟨d, ?_, he⟩
    simp only [List.mem_cons, List.not_mem_nil, or_false]
    exact hd

theorem mem_get_available_exits_iff (c : City) (idx j : ℕ) (w : ℚ) :
    (j, w) ∈ c.get_available_exits idx ↔ w = 1 ∧ j ∈ nbrs c idx := by
  rw [mem_nbrs_iff]
  unfold City.get_available_exits
  rw [List.mem_map]
  constructor
  · intro ⟨a, ha, he⟩
    rw [Prod.mk.injEq] at he
    obtain ⟨he1, he2⟩ := he
    subst he1
    rw [List.mem_filterMap] at ha
    obtain ⟨d, hd, hde⟩ := ha
    simp only [List.mem_cons, List.not_mem_nil, or_false] at hd
    exact ⟨he2.symm, d, hd, hde⟩
  · intro ⟨hw, d, hd, hde⟩
    subst hw
    refine ⟨j, ?_, rfl⟩
    rw [List.mem_filterMap]
    refine ⟨d, ?_, hde⟩
    simp only [List.mem_cons, List.not_mem_nil, or_false]
    exact hd

theorem nbrs_lt (c : City) (hw : Wellformed c) (i j : ℕ) (h : j ∈ nbrs c i) : j < 25 := by
  obtain ⟨d, -, hde⟩ := (mem_nbrs_iff c i j).mp h
  exact coords_to_index_lt c hw d j ((valid_exit_eq_some_iff c d j).mp hde).1

theorem get_available_exits_length_le (c : City) (idx : ℕ) :
    (c.get_available_exits idx).length ≤ 4 := by
  unfold City.get_available_exits
  rw [List.length_map]
  exact le_trans (List.length_filterMap_le _ _) (by simp)

/-! ## Walk and breadth-first-layer lemmas -/

theorem wend_nil (s : ℕ) : wend s [] = s := rfl

theorem wend_concat (s x : ℕ) (l : List ℕ) : wend s (l ++ [x]) = x :=
  List.getLastD_concat _ _ _

theorem wend_cons (s j : ℕ) (l : List ℕ) : wend s (j :: l) = wend j l :=
  List.getLastD_cons _ _ _

theorem validWalk_append (c : City) (s : ℕ) (a b : List ℕ) :
    ValidWalk c s (a ++ b) ↔ ValidWalk c s a ∧ ValidWalk c (wend s a) b := by
  induction a generalizing s with
  | nil => simp [ValidWalk, wend_nil]
  | cons j rest ih => simp [ValidWalk, ih, wend_cons, and_assoc]

theorem mem_reachIn_zero (c : City) (s x : ℕ) : x ∈ reachIn c s 0 ↔ x = s := by
  simp [reachIn]

theorem mem_reachIn_succ (c : City) (s x n : ℕ) :
    x ∈ reachIn c s (n + 1) ↔ x ∈ reachIn c s n ∨ ∃ u ∈ reachIn c s n, x ∈ nbrs c u := by
  simp [reachIn, List.mem_dedup, List.mem_append, List.mem_flatMap]

theorem reachIn_mono_succ (c : City) (s x n : ℕ) (h : x ∈ reachIn c s n) :
    x ∈ reachIn c s (n + 1) :=
  (mem_reachIn_succ c s x n).mpr (Or.inl h)

theorem reachIn_mono (c : City) (s x : ℕ) {m n : ℕ} (hmn : m ≤ n)
    (h : x ∈ reachIn c s m) : x ∈ reachIn c s n := by
  induction n, hmn using Nat.le_induction with
  | base => exact h
  | succ n hmn ih => exact reachIn_mono_succ c s x n ih

theorem self_mem_reachIn (c : City) (s n : ℕ) : s ∈ reachIn c s n := by
  induction n with
  | zero => exact (mem_reachIn_zero c s s).mpr rfl
  | succ n ih => exact reachIn_mono_succ c s s n ih

theorem reachIn_lt (c : City) (hw : Wellformed c) (s : ℕ) (hs : s < 25) (n x : ℕ)
    (h : x ∈ reachIn c s n) : x < 25 := by
  induction n generalizing x with
  | zero => rw [mem_reachIn_zero] at h; exact h ▸ hs
  | succ n ih =>
    rcases (mem_reachIn_succ c s x n).mp h with h | ⟨u, -, hx⟩
    · exact ih x h
    · exact nbrs_lt c hw u x hx

theorem wend_mem_reachIn (c : City) (s : ℕ) (w : List ℕ) (n : ℕ)
    (hv : ValidWalk c s w) (hl : w.length ≤ n) : wend s w ∈ reachIn c s n := by
  induction w using List.reverseRecOn generalizing n with
  | nil => exact self_mem_reachIn c s n
  | append_singleton l x ih =>
    obtain ⟨hl', hx⟩ := (validWalk_append c s l [x]).mp hv
    obtain ⟨hmem, -⟩ := hx
    cases n with
    | zero => simp at hl
    | succ n =>
      rw [List.length_append, List.length_singleton] at hl
      have hwl : wend s l ∈ reachIn c s n := ih n hl' (by omega)
      rw [wend_concat]
      exact (mem_reachIn_succ c s x n).mpr (Or.inr ⟨wend s l, hwl, hmem⟩)

theorem reachIn_to_walk (c : City) (s : ℕ) (n x : ℕ) (h : x ∈ reachIn c s n) :
    ∃ w, ValidWalk c s w ∧ wend s w = x ∧ w.length ≤ n := by
  induction n generalizing x with
  | zero =>
    rw [mem_reachIn_zero] at h
    exact ⟨[], trivial, h ▸ rfl, by simp⟩
  | succ n ih =>
    rcases (mem_reachIn_succ c s x n).mp h with h | ⟨u, hu, hx⟩
    · obtain ⟨w, hv, he, hl⟩ := ih x h
      exact ⟨w, hv, he, le_trans hl (Nat.le_succ n)⟩
    · obtain ⟨w, hv, he, hl⟩ := ih u hu
      refine ⟨w ++ [x], ?_, wend_concat s x w, ?_⟩
      · rw [validWalk_append]
        exact ⟨hv, by rw [he]; exact ⟨hx, trivial⟩⟩
      · rw [List.length_append, List.length_singleton]
        omega

theorem reachable_iff_exists_reachIn (c : City) (s t : ℕ) :
    Reachable c s t ↔ ∃ n, t ∈ reachIn c s n := by
  constructor
  · intro ⟨w, hv, he⟩
    exact ⟨w.length, he ▸ wend_mem_reachIn c s w w.length hv (le_refl _)⟩
  · intro ⟨n, hn⟩
    obtain ⟨w, hv, he, -⟩ := reachIn_to_walk c s n t hn
    exact ⟨w, hv, he⟩

theorem reachIn_stab (c : City) (s n : ℕ)
    (hstab : ∀ x, x ∈ reachIn c s (n + 1) ↔ x ∈ reachIn c s n) :
    ∀ m, n ≤ m → ∀ x, (x ∈ reachIn c s m ↔ x ∈ reachIn c s n) := by
  intro m hm
  induction m, hm using Nat.le_induction with
  | base => intro x; exact Iff.rfl
  | succ m hm ih =>
    intro x
    rw [mem_reachIn_succ]
    constructor
    · rintro (h | ⟨u, hu, hx⟩)
      · exact (ih x).mp h
      · have hu' := (ih u).mp hu
        exact (hstab x).mp
          ((mem_reachIn_succ c s x n).mpr (Or.inr ⟨u, hu', hx⟩))
    · intro h
      exact Or.inl ((ih x).mpr h)

theorem reachIn_stabilizes (c : City) (hw : Wellformed c) (s : ℕ) (hs : s < 25) :
    ∃ n, n ≤ 25 ∧ ∀ x, x ∈ reachIn c s (n + 1) ↔ x ∈ reachIn c s n := by
  by_contra hcon
  push_neg at hcon
  have grow : ∀ n, n ≤ 25 → ∃ x, x ∈ reachIn c s (n + 1) ∧ x ∉ reachIn c s n := by
    intro n hn
    obtain ⟨x, hx⟩ := hcon n hn
    rcases hx with ⟨h1, h2⟩ | ⟨h1, h2⟩
    · exact ⟨x, h1, h2⟩
    · exact absurd (reachIn_mono_succ c s x n h2) h1
  have card_grow : ∀ k, k ≤ 26 → k + 1 ≤ (reachIn c s k).toFinset.card := by
    intro k
    induction k with
    | zero =>
      intro _
      have : s ∈ (reachIn c s 0).toFinset := List.mem_toFinset.mpr (self_mem_reachIn c s 0)
      exact Finset.card_pos.mpr ⟨s, this⟩
    | succ k ih =>
      intro hk
      obtain ⟨x, hx1, hx2⟩ := grow k (by omega)
      have hss : (reachIn c s k).toFinset ⊂ (reachIn c s (k + 1)).toFinset := by
        constructor
        · intro y hy
          exact List.mem_toFinset.mpr
            (reachIn_mono_succ c s y k (List.mem_toFinset.mp hy))
        · intro hsub
          exact hx2 (List.mem_toFinset.mp (hsub (List.mem_toFinset.mpr hx1)))
      have := Finset.card_lt_card hss
      have := ih (by omega)
      omega
  have hsub : (reachIn c s 26).toFinset ⊆ Finset.range 25 := by
    intro y hy
    exact Finset.mem_range.mpr (reachIn_lt c hw s hs 26 y (List.mem_toFinset.mp hy))
  have hle : (reachIn c s 26).toFinset.card ≤ 25 := by
    have := Finset.card_le_card hsub
    simpa using this
  have := card_grow 26 (le_refl _)
  omega

theorem mem_reachIn_25_of_reachable (c : City) (hw : Wellformed c) (s : ℕ) (hs : s < 25)
    (t : ℕ) (h : Reachable c s t) : t ∈ reachIn c s 25 := by
  obtain ⟨n, hn⟩ := (reachable_iff_exists_reachIn c s t).mp h
  rcases le_or_lt n 25 with hle | hgt
  · exact reachIn_mono c s t hle hn
  · obtain ⟨m, hm25, hstab⟩ := reachIn_stabilizes c hw s hs
    have h1 : t ∈ reachIn c s m :=
      (reachIn_stab c s m hstab n (by omega) t).mp hn
    exact reachIn_mono c s t hm25 h1

/-! ## Distance search and path extraction lemmas -/

theorem bfsDistGo_some (c : City) (s t : ℕ) (fuel : ℕ) :
    ∀ n m, bfsDistGo c s t fuel n = some m →
      n ≤ m ∧ m < n + fuel ∧ t ∈ reachIn c s m ∧
        ∀ k, n ≤ k → k < m → t ∉ reachIn c s k := by
  induction fuel with
  | zero => intro n m h; exact Option.noConfusion h
  | succ fuel ih =>
    intro n m h
    unfold bfsDistGo at h
    split_ifs at h with hmem
    · cases h
      exact ⟨le_refl _, by omega, hmem, fun k hk1 hk2 => absurd hk2 (by omega)⟩
    · obtain ⟨h1, h2, h3, h4⟩ := ih (n + 1) m h
      refine ⟨by omega, by omega, h3, ?_⟩
      intro k hk1 hk2
      rcases eq_or_lt_of_le hk1 with heq | hlt
      · subst heq; exact hmem
      · exact h4 k (by omega) hk2

theorem bfsDistGo_none (c : City) (s t fuel : ℕ) :
    ∀ n, bfsDistGo c s t fuel n = none → ∀ k, n ≤ k → k < n + fuel → t ∉ reachIn c s k := by
  induction fuel with
  | zero => intro n _ k hk1 hk2; exact absurd hk2 (by omega)
  | succ fuel ih =>
    intro n h k hk1 hk2
    unfold bfsDistGo at h
    split_ifs at h with hmem
    rcases eq_or_lt_of_le hk1 with heq | hlt
    · subst heq; exact hmem
    · exact ih (n + 1) h k (by omega) (by omega)

theorem bfsDist_mem (c : City) (s t m : ℕ) (h : bfsDist c s t = some m) :
    t ∈ reachIn c s m := by
  unfold bfsDist at h
  exact (bfsDistGo_some c s t _ 0 m h).2.2.1

theorem bfsDist_min (c : City) (s t m : ℕ) (h : bfsDist c s t = some m) :
    ∀ k, k < m → t ∉ reachIn c s k := by
  unfold bfsDist at h
  exact fun k hk => (bfsDistGo_some c s t _ 0 m h).2.2.2 k (by omega) hk

theorem reachable_of_bfsDist_some (c : City) (s t m : ℕ) (h : bfsDist c s t = some m) :
    Reachable c s t :=
  (reachable_iff_exists_reachIn c s t).mpr ⟨m, bfsDist_mem c s t m h⟩

theorem bfsDist_none_not_reachable (c : City) (hw : Wellformed c) (s : ℕ) (hs : s < 25)
    (t : ℕ) (h : bfsDist c s t = none) : ¬Reachable c s t := by
  intro hr
  have h25 := mem_reachIn_25_of_reachable c hw s hs t hr
  unfold bfsDist at h
  rw [hw.2.2] at h
  exact bfsDistGo_none c s t 26 0 h 25 (by omega) (by omega) h25

theorem bfsDist_some_of_reachable (c : City) (hw : Wellformed c) (s : ℕ) (hs : s < 25)
    (t : ℕ) (hr : Reachable c s t) : ∃ m, bfsDist c s t = some m := by
  cases h : bfsDist c s t with
  | none => exact absurd hr (bfsDist_none_not_reachable c hw s hs t h)
  | some m => exact ⟨m, rfl⟩

theorem bfsDist_self (c : City) (s : ℕ) : bfsDist c s s = some 0 := by
  unfold bfsDist bfsDistGo
  rw [if_pos (self_mem_reachIn c s 0)]

theorem pathBack_spec (c : City) (hw : Wellformed c) (s : ℕ) (hs : s < 25) :
    ∀ n t, t ∈ reachIn c s n → (∀ k, k < n → t ∉ reachIn c s k) →
      ValidWalk c s (pathBack c s t n) ∧ wend s (pathBack c s t n) = t ∧
        (pathBack c s t n).length = n ∧ ∀ x ∈ pathBack c s t n, x ≠ s := by
  intro n
  induction n with
  | zero =>
    intro t ht _
    rw [mem_reachIn_zero] at ht
    subst ht
    exact ⟨trivial, rfl, rfl, by simp [pathBack]⟩
  | succ n ih =>
    intro t ht hmin
    have htn : t ∉ reachIn c s n := hmin n (Nat.lt_succ_self n)
    rcases (mem_reachIn_succ c s t n).mp ht with h | ⟨u, hu, htu⟩
    · exact absurd h htn
    have hfind : ∃ u0, (List.range c.heights.length).find?
        (fun v => decide (t ∈ nbrs c v) && decide (v ∈ reachIn c s n)) = some u0 := by
      cases hf : (List.range c.heights.length).find?
          (fun v => decide (t ∈ nbrs c v) && decide (v ∈ reachIn c s n)) with
      | some u0 => exact ⟨u0, rfl⟩
      | none =>
        rw [List.find?_eq_none] at hf
        have hu25 : u < 25 := reachIn_lt c hw s hs n u hu
        have humem : u ∈ List.range c.heights.length := by
          rw [List.mem_range, hw.2.2]
          exact hu25
        have hcontra := hf u humem
        simp only [Bool.and_eq_true, decide_eq_true_eq] at hcontra
        exact absurd ⟨htu, hu⟩ hcontra
    obtain ⟨u0, hf⟩ := hfind
    have hprops := List.find?_some hf
    simp only [Bool.and_eq_true, decide_eq_true_eq] at hprops
    obtain ⟨htu0, hu0⟩ := hprops
    have hu0min : ∀ k, k < n → u0 ∉ reachIn c s k := by
      intro k hk hmem
      exact hmin (k + 1) (by omega)
        ((mem_reachIn_succ c s t k).mpr (Or.inr ⟨u0, hmem, htu0⟩))
    obtain ⟨ihv, ihe, ihl, ihs⟩ := ih u0 hu0 hu0min
    have hpb : pathBack c s t (n + 1) = pathBack c s u0 n ++ [t] := by
      conv_lhs => rw [pathBack]
      rw [hf]
    rw [hpb]
    refine ⟨?_, wend_concat s t _, ?_, ?_⟩
    · rw [validWalk_append]
      exact ⟨ihv, by rw [ihe]; exact ⟨htu0, trivial⟩⟩
    · rw [List.length_append, List.length_singleton, ihl]
    · intro x hx
      rcases List.mem_append.mp hx with hx | hx
      · exact ihs x hx
      · rw [List.mem_singleton] at hx
        subst hx
        intro hts
        exact htn (hts ▸ self_mem_reachIn c s n)

theorem searchPath_eq_of_bfsDist_some (c : City) (s t m : ℕ)
    (hb : bfsDist c s t = some m) : searchPath c s t = pathBack c s t m := by
  unfold searchPath
  rw [hb]

theorem searchPath_eq_of_bfsDist_none (c : City) (s t : ℕ)
    (hb : bfsDist c s t = none) : searchPath c s t = [] := by
  unfold searchPath
  rw [hb]

theorem searchPath_self (c : City) (s : ℕ) : searchPath c s s = [] := by
  rw [searchPath_eq_of_bfsDist_some c s s 0 (bfsDist_self c s)]
  rfl

theorem searchPath_empty_of_not_reachable (c : City) (s t : ℕ) (h : ¬Reachable c s t) :
    searchPath c s t = [] := by
  cases hb : bfsDist c s t with
  | none => exact searchPath_eq_of_bfsDist_none c s t hb
  | some m => exact absurd (reachable_of_bfsDist_some c s t m hb) h

theorem searchPath_spec (c : City) (hw : Wellformed c) (s t : ℕ) (hs : s < 25)
    (hne : searchPath c s t ≠ []) :
    ValidWalk c s (searchPath c s t) ∧ wend s (searchPath c s t) = t ∧
      s ∉ searchPath c s t ∧
      ∀ w, ValidWalk c s w → wend s w = t → (searchPath c s t).length ≤ w.length := by
  cases hb : bfsDist c s t with
  | none => rw [searchPath_eq_of_bfsDist_none c s t hb] at hne; exact absurd rfl hne
  | some m =>
    rw [searchPath_eq_of_bfsDist_some c s t m hb] at hne ⊢
    have hmem := bfsDist_mem c s t m hb
    have hmin := bfsDist_min c s t m hb
    obtain ⟨hv, he, hl, hns⟩ := pathBack_spec c hw s hs m t hmem hmin
    refine ⟨hv, he, fun hsm => hns s hsm rfl, ?_⟩
    intro w hwv hwe
    have hwm : t ∈ reachIn c s w.length :=
      hwe ▸ wend_mem_reachIn c s w w.length hwv (le_refl _)
    rw [hl]
    by_contra hlt
    push_neg at hlt
    exact hmin w.length hlt hwm

theorem searchPath_ne_empty_of_reachable (c : City) (hw : Wellformed c) (s t : ℕ)
    (hs : s < 25) (hr : Reachable c s t) (hne : s ≠ t) : searchPath c s t ≠ [] := by
  obtain ⟨m, hm⟩ := bfsDist_some_of_reachable c hw s hs t hr
  have hmem := bfsDist_mem c s t m hm
  have hmin := bfsDist_min c s t m hm
  obtain ⟨-, -, hl, -⟩ := pathBack_spec c hw s hs m t hmem hmin
  rw [searchPath_eq_of_bfsDist_some c s t m hm]
  intro hempty
  rw [hempty] at hl
  have hm0 : m = 0 := by simpa using hl.symm
  subst hm0
  exact hne ((mem_reachIn_zero c s t).mp hmem).symm

/-! ## Heuristic and coordinate lemmas -/

theorem toI8_eq_self (n : ℤ) (h1 : -128 ≤ n) (h2 : n ≤ 127) : toI8 n = n := by
  unfold toI8
  omega

theorem from_world_to_world (g : GridCoords) (e : ℚ) (h1 : -128 ≤ g.x) (h2 : g.x ≤ 127)
    (h3 : -128 ≤ g.y) (h4 : g.y ≤ 127) : GridCoords.from_world (g.to_world e) = g := by
  unfold GridCoords.to_world
  rw [from_world_intCast]
  cases g with
  | mk gx gy =>
    dsimp only at h1 h2 h3 h4
    rw [GridCoords.mk.injEq]
    exact ⟨toI8_eq_self gx h1 h2, toI8_eq_self gy h3 h4⟩

theorem manhattan_dist_nbr (a b t : GridCoords)
    (h : b = a.up ∨ b = a.down ∨ b = a.left ∨ b = a.right) :
    a.manhattan_dist t ≤ 1 + b.manhattan_dist t := by
  rcases h with h | h | h | h <;> subst h <;>
    simp only [GridCoords.manhattan_dist, GridCoords.up, GridCoords.down,
      GridCoords.left, GridCoords.right, Int.abs_eq_natAbs] <;>
    omega

theorem get_pathing_distance_consistent (c : City) (hw : Wellformed c) (i j t : ℕ)
    (h : j ∈ nbrs c i) :
    c.get_pathing_distance i t ≤ 1 + c.get_pathing_distance j t := by
  obtain ⟨d, hd, hde⟩ := (mem_nbrs_iff c i j).mp h
  obtain ⟨hidx, -⟩ := (valid_exit_eq_some_iff c d j).mp hde
  have hj : c.index_to_coords j = d := index_to_coords_of_coords_to_index c hw d j hidx
  unfold City.get_pathing_distance
  rw [hj]
  have hman := manhattan_dist_nbr (c.index_to_coords i) d (c.index_to_coords t) hd
  exact_mod_cast hman

theorem get_pathing_distance_le_walk (c : City) (hw : Wellformed c) (i : ℕ) (w : List ℕ)
    (hv : ValidWalk c i w) : c.get_pathing_distance i (wend i w) ≤ (w.length : ℚ) := by
  induction w generalizing i with
  | nil =>
    show c.get_pathing_distance i (wend i []) ≤ ((0 : ℕ) : ℚ)
    rw [wend_nil]
    simp [City.get_pathing_distance, GridCoords.manhattan_dist]
  | cons j rest ih =>
    obtain ⟨hj, hrest⟩ := hv
    rw [wend_cons]
    have h1 := get_pathing_distance_consistent c hw i j (wend j rest) hj
    have h2 := ih j hrest
    rw [List.length_cons]
    push_cast
    push_cast at h2
    linarith

/-! ## Claim theorems -/

theorem wend_mem (s : ℕ) (l : List ℕ) (h : l ≠ []) : wend s l ∈ l := by
  induction l generalizing s with
  | nil => exact absurd rfl h
  | cons a l2 ih =>
    rw [wend_cons]
    cases l2 with
    | nil => simp [wend_nil]
    | cons b l3 => exact List.mem_cons_of_mem a (ih a (by simp))

/-- C2: for every GridCoords `g` (components in the `i8` range, as in the
source type) and every elevation `e`, `from_world (to_world g e) = g`; in
particular the result is the same for all elevations, since `to_world`
places the elevation on the world y axis and `from_world` ignores it. -/
theorem claim_C2_roundtrip (g : GridCoords) (h1 : -128 ≤ g.x) (h2 : g.x ≤ 127)
    (h3 : -128 ≤ g.y) (h4 : g.y ≤ 127) :
    (∀ e : ℚ, GridCoords.from_world (g.to_world e) = g) ∧
      ∀ e1 e2 : ℚ,
        GridCoords.from_world (g.to_world e1) = GridCoords.from_world (g.to_world e2) := by
  constructor
  · intro e
    exact from_world_to_world g e h1 h2 h3 h4
  · intro e1 e2
    rw [from_world_to_world g e1 h1 h2 h3 h4, from_world_to_world g e2 h1 h2 h3 h4]

theorem claim_C2_witness :
    GridCoords.from_world (GridCoords.to_world ⟨-2, 1⟩ (7/3)) = ⟨-2, 1⟩ :=
  (claim_C2_roundtrip ⟨-2, 1⟩ (by decide) (by decide) (by decide) (by decide)).1 (7/3)

/-- C7: `from_world` rounds half away from zero on the world x and z
components: `(0.5, e, 0.5) ↦ (1, 1)` and `(-0.5, e, -0.5) ↦ (-1, -1)` for
every elevation `e` (banker's rounding would give 0, truncation would give
0 on both). -/
theorem claim_C7_half_away_from_zero (e : ℚ) :
    GridCoords.from_world ⟨1/2, e, 1/2⟩ = ⟨1, 1⟩ ∧
      GridCoords.from_world ⟨-(1/2), e, -(1/2)⟩ = ⟨-1, -1⟩ := by
  unfold GridCoords.from_world
  constructor
  · rw [show (⟨1/2, e, 1/2⟩ : Vec3).x = 1/2 from rfl,
      show (⟨1/2, e, 1/2⟩ : Vec3).z = 1/2 from rfl, roundHalfAway_half]
    decide
  · rw [show (⟨-(1/2), e, -(1/2)⟩ : Vec3).x = -(1/2) from rfl,
      show (⟨-(1/2), e, -(1/2)⟩ : Vec3).z = -(1/2) from rfl, roundHalfAway_neg_half]
    decide

/-- C3: `height_at_coords` is `none` exactly when the coordinate is out of
the grid (a shifted component outside `[0, 5)`) or the cell's stored height
is 0, and `some h` exactly when the cell is in bounds with stored height
`h > 0`; on the starting 5×5 grid both `(3, 0)` and `(-3, 0)` are out of
bounds and yield `none`. -/
theorem claim_C3_height_at (c : City) (hw : Wellformed c) (g : GridCoords) :
    (c.coords_to_index g = none ↔
      ¬(0 ≤ g.x + 2 ∧ g.x + 2 < 5 ∧ 0 ≤ g.y + 2 ∧ g.y + 2 < 5)) ∧
    (c.height_at_coords g = none ↔
      c.coords_to_index g = none ∨
        ∃ k, c.coords_to_index g = some k ∧ c.heights.getD k 0 = 0) ∧
    (∀ h : Height, c.height_at_coords g = some h ↔
      ∃ k, c.coords_to_index g = some k ∧ c.heights.getD k 0 = h ∧ 0 < h) ∧
    city5.height_at_coords ⟨3, 0⟩ = none ∧ city5.height_at_coords ⟨-3, 0⟩ = none :=
  ⟨coords_to_index_eq_none_iff c hw g,
    height_at_coords_eq_none_iff c g,
    fun h => height_at_coords_eq_some_iff c g h,
    by decide, by decide⟩

theorem claim_C3_witness :
    city5.height_at_coords ⟨3, 0⟩ = none ∧ city5.height_at_coords ⟨-3, 0⟩ = none :=
  ⟨(claim_C3_height_at city5 (by decide) ⟨3, 0⟩).2.2.2.1,
    (claim_C3_height_at city5 (by decide) ⟨3, 0⟩).2.2.2.2⟩

/-- C4: for every cell index the exits query returns at most 4 pairs, and
`(j, w)` is returned iff `w = 1` and `j` is the index of one of the four
4-connected neighbors (up/down/left/right in grid space) of the cell that
is in bounds and has stored height 0; in particular no diagonal neighbor is
ever returned. -/
theorem claim_C4_exits (c : City) (idx : ℕ) :
    (c.get_available_exits idx).length ≤ 4 ∧
      ∀ j w, ((j, w) ∈ c.get_available_exits idx ↔
        w = 1 ∧ ∃ d, (d = (c.index_to_coords idx).up ∨ d = (c.index_to_coords idx).down ∨
          d = (c.index_to_coords idx).left ∨ d = (c.index_to_coords idx).right) ∧
          c.coords_to_index d = some j ∧ c.heights.getD j 0 = 0) := by
  refine ⟨get_available_exits_length_le c idx, ?_⟩
  intro j w
  rw [mem_get_available_exits_iff, mem_nbrs_iff]
  constructor
  · intro ⟨hw1, d, hd, hde⟩
    obtain ⟨hidx, hz⟩ := (valid_exit_eq_some_iff c d j).mp hde
    exact ⟨hw1, d, hd, hidx, hz⟩
  · intro ⟨hw1, d, hd, hidx, hz⟩
    exact ⟨hw1, d, hd, (valid_exit_eq_some_iff c d j).mpr ⟨hidx, hz⟩⟩

/-- C5: when the City changed since the last tick, every person's path is
reset to the default (empty) path while everything else — in particular the
goal — is unchanged (a `Person` has exactly the fields `goal` and `path`). -/
theorem claim_C5_reset_paths (people : List Person) :
    (∀ i : ℕ, (reset_paths_after_city_changes true people)[i]? =
      (people[i]?).map (fun p => { p with path := NavigationPath.default })) ∧
    ∀ q ∈ reset_paths_after_city_changes true people, q.path.steps = [] := by
  constructor
  · intro i
    unfold reset_paths_after_city_changes
    rw [if_pos rfl, List.getElem?_map]
    rfl
  · intro q hq
    unfold reset_paths_after_city_changes at hq
    rw [if_pos rfl, List.mem_map] at hq
    obtain ⟨p, -, hp⟩ := hq
    rw [← hp]
    rfl

/-- C9: `set_height_at_coords` at an out-of-bounds coordinate is a no-op:
the city value is returned unchanged, so every cell keeps its height. -/
theorem claim_C9_oob_noop (c : City) (g : GridCoords) (h : Option Height)
    (hoob : c.coords_to_index g = none) :
    c.set_height_at_coords g h = c := by
  unfold City.set_height_at_coords
  rw [hoob]

theorem claim_C9_witness :
    city5.coords_to_index ⟨3, 0⟩ = none ∧
      city5.set_height_at_coords ⟨3, 0⟩ (some 7) = city5 :=
  ⟨by decide, claim_C9_oob_noop city5 ⟨3, 0⟩ (some 7) (by decide)⟩

/-- C8: `get_pathing_distance` is exactly the Manhattan distance
`|dx| + |dy|` between the two cells' coordinates, and on the uniform
4-connected unit-cost grid it is consistent (drops by at most the unit
step cost across any available exit) and admissible (bounds the length of
every walk to the target from below). -/
theorem claim_C8_heuristic (c : City) (hw : Wellformed c) :
    (∀ i j : ℕ, c.get_pathing_distance i j =
      ((|(c.index_to_coords j).x - (c.index_to_coords i).x| +
        |(c.index_to_coords j).y - (c.index_to_coords i).y| : ℤ) : ℚ)) ∧
    (∀ i j t : ℕ, j ∈ nbrs c i →
      c.get_pathing_distance i t ≤ 1 + c.get_pathing_distance j t) ∧
    ∀ (i : ℕ) (w : List ℕ), ValidWalk c i w →
      c.get_pathing_distance i (wend i w) ≤ (w.length : ℚ) := by
  refine ⟨fun i j => rfl, ?_, ?_⟩
  · intro i j t h
    exact get_pathing_distance_consistent c hw i j t h
  · intro i w hv
    exact get_pathing_distance_le_walk c hw i w hv

theorem claim_C8_witness :
    (city5.get_pathing_distance 12 14 =
      ((|(city5.index_to_coords 14).x - (city5.index_to_coords 12).x| +
        |(city5.index_to_coords 14).y - (city5.index_to_coords 12).y| : ℤ) : ℚ)) ∧
      city5.get_pathing_distance 12 14 ≤ 1 + city5.get_pathing_distance 17 14 :=
  ⟨(claim_C8_heuristic city5 (by decide)).1 12 14,
    (claim_C8_heuristic city5 (by decide)).2.1 12 17 14 (by decide)⟩

/-- C1: for every start and goal index of the 5×5 grid, the (spec-modelled)
path search returns a least-cost route: if the goal is unreachable the step
sequence is empty; a goal equal to the start also yields the empty sequence
(spec §4.3: "already at goal" is also an empty sequence); otherwise the
returned steps are a 4-connected walk over `get_available_exits` starting
after the start cell (start excluded), ending at — and containing — the
goal cell, and no valid walk to the goal is shorter (each exit has cost
exactly 1, so fewest steps is least cost). -/
theorem claim_C1_search (c : City) (hw : Wellformed c) (s t : ℕ)
    (hs : s < 25) (ht : t < 25) :
    (¬Reachable c s t → (a_star_search s t c).steps = []) ∧
    (s = t → (a_star_search s t c).steps = []) ∧
    (Reachable c s t → s ≠ t →
      (a_star_search s t c).steps ≠ [] ∧
      ValidWalk c s (a_star_search s t c).steps ∧
      wend s (a_star_search s t c).steps = t ∧
      t ∈ (a_star_search s t c).steps ∧
      s ∉ (a_star_search s t c).steps ∧
      ∀ w, ValidWalk c s w → wend s w = t →
        (a_star_search s t c).steps.length ≤ w.length) := by
  have hsteps : (a_star_search s t c).steps = searchPath c s t := rfl
  rw [hsteps]
  refine ⟨fun h => searchPath_empty_of_not_reachable c s t h,
    fun h => by subst h; exact searchPath_self c s,
    fun hr hne => ?_⟩
  have hnonempty := searchPath_ne_empty_of_reachable c hw s t hs hr hne
  obtain ⟨hv, he, hns, hmin⟩ := searchPath_spec c hw s t hs hnonempty
  refine ⟨hnonempty, hv, he, ?_, hns, hmin⟩
  have hm := wend_mem s (searchPath c s t) hnonempty
  rwa [he] at hm

theorem not_reachable_of_occupied (c : City) (s t : ℕ) (hne : s ≠ t)
    (hocc : c.heights.getD t 0 ≠ 0) : ¬Reachable c s t := by
  intro ⟨w, hv, hend⟩
  rcases List.eq_nil_or_concat w with rfl | ⟨l, x, rfl⟩
  · exact hne hend
  · rw [List.concat_eq_append] at hv hend
    obtain ⟨-, hx⟩ := (validWalk_append c s l [x]).mp hv
    obtain ⟨hmem, -⟩ := hx
    rw [wend_concat] at hend
    subst hend
    obtain ⟨d, -, hde⟩ := (mem_nbrs_iff c (wend s l) x).mp hmem
    exact hocc ((valid_exit_eq_some_iff c d x).mp hde).2

theorem claim_C1_witness :
    ((a_star_search 12 17 city5).steps ≠ [] ∧
      ValidWalk city5 12 (a_star_search 12 17 city5).steps ∧
      wend 12 (a_star_search 12 17 city5).steps = 17 ∧
      17 ∈ (a_star_search 12 17 city5).steps ∧
      12 ∉ (a_star_search 12 17 city5).steps ∧
      ∀ w, ValidWalk city5 12 w → wend 12 w = 17 →
        (a_star_search 12 17 city5).steps.length ≤ w.length) ∧
    (a_star_search 12 13 city5).steps = [] :=
  ⟨(claim_C1_search city5 (by decide) 12 17 (by decide) (by decide)).2.2
      ⟨[17], by decide, by decide⟩ (by decide),
    (claim_C1_search city5 (by decide) 12 13 (by decide) (by decide)).1
      (not_reachable_of_occupied city5 12 13 (by decide) (by decide))⟩

/-- C6: an agent with a set goal (not yet reached) and an empty path runs
the path search from its current cell to the goal cell; an empty result
abandons the goal (`goal := none`, so a fresh random goal is drawn next
tick), a non-empty result becomes the agent's path with the goal kept
unchanged. -/
theorem claim_C6_planning (c : City) (hw : Wellformed c) (p : Person) (g : GridCoords)
    (pos : Vec3) (rg : GridCoords) (si gi : ℕ)
    (hg : p.goal = some g) (hne : GridCoords.from_world pos ≠ g)
    (hpath : p.path.steps = [])
    (hsi : c.coords_to_index (GridCoords.from_world pos) = some si)
    (hgi : c.coords_to_index g = some gi) :
    ((a_star_search si gi c).steps = [] →
      person_tick c rg pos p = some ({ p with goal := none }, VelUpdate.zero)) ∧
    ((a_star_search si gi c).steps ≠ [] →
      ∃ v, person_tick c rg pos p = some ({ p with path := a_star_search si gi c }, v)) := by
  have hcond2 : ¬(some g = none ∨ some g = some (GridCoords.from_world pos)) := by
    rintro (h | h)
    · exact Option.noConfusion h
    · rw [Option.some.injEq] at h
      exact hne h.symm
  constructor
  · intro hempty
    simp only [person_tick, hg, if_neg hcond2, hpath, List.isEmpty_nil, if_true,
      hsi, hgi, hempty, Option.map_some']
  · intro hnonempty
    obtain ⟨h0, rest, hsteps2⟩ := List.exists_cons_of_ne_nil hnonempty
    have hsi25 : si < 25 := coords_to_index_lt c hw (GridCoords.from_world pos) si hsi
    have hsp : searchPath c si gi ≠ [] := hnonempty
    obtain ⟨hv, -, hns, -⟩ := searchPath_spec c hw si gi hsi25 hsp
    have hlist : searchPath c si gi = h0 :: rest := hsteps2
    have hh0mem : h0 ∈ searchPath c si gi := by
      rw [hlist]; exact List.mem_cons_self h0 rest
    have hh0ne : h0 ≠ si := fun h => hns (h ▸ hh0mem)
    have hh0nbr : h0 ∈ nbrs c si := by
      rw [hlist] at hv
      exact hv.1
    have hh025 : h0 < 25 := nbrs_lt c hw si h0 hh0nbr
    have hsieq : c.index_to_coords si = GridCoords.from_world pos :=
      index_to_coords_of_coords_to_index c hw (GridCoords.from_world pos) si hsi
    have hneq : c.index_to_coords h0 ≠ GridCoords.from_world pos := by
      intro heq
      rw [← hsieq] at heq
      exact hh0ne (index_to_coords_inj c hw h0 si hh025 hsi25 heq)
    simp only [person_tick, hg, if_neg hcond2, hpath, List.isEmpty_nil, if_true,
      hsi, hgi, hsteps2, List.isEmpty_cons, Bool.false_eq_true, if_false,
      Option.map_some', if_neg hneq]
    exact ⟨_, rfl⟩

theorem claim_C6_witness :
    (a_star_search 12 17 city5).steps ≠ [] ∧
      ∃ v, person_tick city5 ⟨0, 0⟩ (GridCoords.to_world ⟨0, 0⟩ 0)
        ⟨some ⟨0, 1⟩, NavigationPath.default⟩ =
        some (⟨some ⟨0, 1⟩, a_star_search 12 17 city5⟩, v) :=
  ⟨by decide,
    (claim_C6_planning city5 (by decide) ⟨some ⟨0, 1⟩, NavigationPath.default⟩ ⟨0, 1⟩
        (GridCoords.to_world ⟨0, 0⟩ 0) ⟨0, 0⟩ 12 17 rfl
        (by rw [from_world_to_world ⟨0, 0⟩ 0 (by decide) (by decide) (by decide) (by decide)]
            decide)
        rfl
        (by rw [from_world_to_world ⟨0, 0⟩ 0 (by decide) (by decide) (by decide) (by decide)]
            decide)
        (by decide)).2
      (by decide)⟩

/-- C10: the random goal drawn by `people_walk` has both components in
`[-2, 2]`, which is in bounds for the 5×5 grid, so `coords_to_index` on the
goal is always `some` and the goal-index unwrap cannot panic; the unwrap of
the agent's own position index succeeds only when the agent's world
position rounds to an in-bounds coordinate: with an in-bounds position
(and every stored goal drawn from the in-bounds range) the tick is total,
while with an out-of-bounds position any tick that reaches the planning
branch panics (`none`). -/
theorem claim_C10_unwrap_safety (c : City) (hw : Wellformed c) (rg : GridCoords)
    (hrgx1 : -2 ≤ rg.x) (hrgx2 : rg.x ≤ 2) (hrgy1 : -2 ≤ rg.y) (hrgy2 : rg.y ≤ 2) :
    (c.coords_to_index rg).isSome = true ∧
    (∀ (p : Person) (pos : Vec3),
      (∀ g, p.goal = some g → (c.coords_to_index g).isSome = true) →
      (c.coords_to_index (GridCoords.from_world pos)).isSome = true →
      (person_tick c rg pos p).isSome = true) ∧
    (∀ (p : Person) (pos : Vec3),
      c.coords_to_index (GridCoords.from_world pos) = none →
      (p.goal = none ∨ p.goal = some (GridCoords.from_world pos) ∨ p.path.steps = []) →
      person_tick c rg pos p = none) := by
  have hsome : ∀ g : GridCoords, -2 ≤ g.x → g.x ≤ 2 → -2 ≤ g.y → g.y ≤ 2 →
      (c.coords_to_index g).isSome = true := by
    intro g a b d e
    rcases hidx : c.coords_to_index g with _ | k
    · have := (coords_to_index_eq_none_iff c hw g).mp hidx
      omega
    · rfl
  refine ⟨hsome rg hrgx1 hrgx2 hrgy1 hrgy2, ?_, ?_⟩
  · intro p pos hginv hpos
    obtain ⟨si, hsi⟩ := Option.isSome_iff_exists.mp hpos
    obtain ⟨gri, hgri⟩ :=
      Option.isSome_iff_exists.mp (hsome rg hrgx1 hrgx2 hrgy1 hrgy2)
    by_cases hcond : p.goal = none ∨ p.goal = some (GridCoords.from_world pos)
    · simp only [person_tick, if_pos hcond, NavigationPath.default, List.isEmpty_nil,
        if_true, hsi]
      try dsimp only
      rw [hgri]
      try dsimp only
      split_ifs <;> rfl
    · rcases hgoal : p.goal with _ | g
      · exact absurd (Or.inl hgoal) hcond
      rw [hgoal] at hcond
      obtain ⟨gi, hgi⟩ := Option.isSome_iff_exists.mp (hginv g hgoal)
      by_cases hempty : p.path.steps.isEmpty = true
      · simp only [person_tick, hgoal, if_neg hcond, hempty, eq_self_iff_true, if_true, hsi]
        try dsimp only
        rw [hgi]
        try dsimp only
        split_ifs <;> rfl
      · simp only [person_tick, hgoal, if_neg hcond, if_neg hempty]
        rfl
  · intro p pos hoob hplan
    by_cases hcond : p.goal = none ∨ p.goal = some (GridCoords.from_world pos)
    · simp only [person_tick, if_pos hcond, NavigationPath.default, List.isEmpty_nil,
        if_true, hoob]
      try dsimp only
      rfl
    · have hpath : p.path.steps = [] := by
        rcases hplan with h | h | h
        · exact absurd (Or.inl h) hcond
        · exact absurd (Or.inr h) hcond
        · exact h
      rcases hgoal : p.goal with _ | g
      · exact absurd (Or.inl hgoal) hcond
      rw [hgoal] at hcond
      simp only [person_tick, hgoal, if_neg hcond, hpath, List.isEmpty_nil, if_true, hoob]
      try dsimp only
      rfl

theorem claim_C10_witness : (city5.coords_to_index ⟨2, -2⟩).isSome = true :=
  (claim_C10_unwrap_safety city5 (by decide) ⟨2, -2⟩ (by decide) (by decide) (by decide)
    (by decide)).1
